import Mathlib

/-!
Shallow embedding of the dotgirl repository (src/main.rs, src/disk.rs,
src/util.rs).

The Rust in-memory filesystem (src/disk.rs, `MemoryFilesystem`) keeps a
`HashMap<String, Entry>`.  We model such maps as association lists: `lookupK`
returns the value of the most recent insertion for a key, `insertK` replaces
any previous binding (cons + filter), `eraseKey` drops every binding of a key.
Rust `String` keys are modelled as `List Char` so that the raw string-prefix
operations of the source (`starts_with`, `trim_start_matches`) are plain list
operations.
-/

namespace Dotgirl

section AssocMap

variable {κ ε : Type} [DecidableEq κ]

/-- First-match lookup in an association list (`HashMap::get`). -/
def lookupK : List (κ × ε) → κ → Option ε
  | [], _ => none
  | kv :: rest, k => if kv.1 = k then some kv.2 else lookupK rest k

/-- Replacing insertion (`HashMap::insert`). -/
def insertK (m : List (κ × ε)) (k : κ) (v : ε) : List (κ × ε) :=
  (k, v) :: m.filter (fun kv => decide (kv.1 ≠ k))

/-- Key removal (`HashMap::remove`). -/
def eraseKey (m : List (κ × ε)) (k : κ) : List (κ × ε) :=
  m.filter (fun kv => decide (kv.1 ≠ k))

theorem lookupK_filter_keep (m : List (κ × ε)) (p : κ × ε → Bool) (k : κ)
    (h : ∀ v, p (k, v) = true) : lookupK (m.filter p) k = lookupK m k := by
  induction m with
  | nil => rfl
  | cons kv rest ih =>
    by_cases hk : kv.1 = k
    · obtain ⟨k1, v1⟩ := kv
      simp only at hk
      subst hk
      simp [List.filter, h v1, lookupK]
    · by_cases hp : p kv = true
      · simp [List.filter, hp, lookupK, hk, ih]
      · simp only [Bool.not_eq_true] at hp
        simp [List.filter, hp, lookupK, hk, ih]

theorem lookupK_filter_drop (m : List (κ × ε)) (p : κ × ε → Bool) (k : κ)
    (h : ∀ v, p (k, v) = false) : lookupK (m.filter p) k = none := by
  induction m with
  | nil => rfl
  | cons kv rest ih =>
    by_cases hk : kv.1 = k
    · obtain ⟨k1, v1⟩ := kv
      simp only at hk
      subst hk
      simp [List.filter, h v1, ih]
    · by_cases hp : p kv = true
      · simp [List.filter, hp, lookupK, hk, ih]
      · simp only [Bool.not_eq_true] at hp
        simp [List.filter, hp, ih]

theorem lookupK_insertK_self (m : List (κ × ε)) (k : κ) (v : ε) :
    lookupK (insertK m k v) k = some v := by
  simp [insertK, lookupK]

theorem lookupK_insertK_ne (m : List (κ × ε)) (k : κ) (v : ε) (k' : κ)
    (h : k' ≠ k) : lookupK (insertK m k v) k' = lookupK m k' := by
  have hne : k ≠ k' := Ne.symm h
  simp only [insertK, lookupK, if_neg hne]
  exact lookupK_filter_keep m _ k' (fun v' => by simp [h])

theorem lookupK_eraseKey_self (m : List (κ × ε)) (k : κ) :
    lookupK (eraseKey m k) k = none := by
  exact lookupK_filter_drop m _ k (fun v => by simp)

theorem lookupK_eraseKey_ne (m : List (κ × ε)) (k : κ) (k' : κ) (h : k' ≠ k) :
    lookupK (eraseKey m k) k' = lookupK m k' := by
  exact lookupK_filter_keep m _ k' (fun v => by simp [h])

theorem lookupK_some_mem (m : List (κ × ε)) (k : κ) (v : ε)
    (h : lookupK m k = some v) : (k, v) ∈ m := by
  induction m with
  | nil => simp [lookupK] at h
  | cons kv rest ih =>
    by_cases hk : kv.1 = k
    · obtain ⟨k1, v1⟩ := kv
      simp only at hk
      subst hk
      simp only [lookupK, if_true, eq_self_iff_true, Option.some.injEq] at h
      simp [h]
    · simp only [lookupK] at h
      rw [if_neg hk] at h
      exact List.mem_cons_of_mem _ (ih h)

end AssocMap

section Disk

/-- Tests whether the list `s` begins with the list `pat` (Rust
`s.starts_with(pat)` on strings, `pat` nonempty or not). -/
def hasPre {α : Type} [DecidableEq α] : List α → List α → Bool
  | [], _ => true
  | _ :: _, [] => false
  | a :: pa, b :: pb => if a = b then hasPre pa pb else false

/-- Fuel-bounded repeated stripping of a leading `pat`
(Rust `str::trim_start_matches(pat)`, which removes EVERY leading occurrence
of the pattern, not just the first).  The fuel only needs to exceed the
number of strips, which is at most `s.length`. -/
def trimAllGo (pat : List Char) : Nat → List Char → List Char
  | 0, s => s
  | fuel + 1, s =>
    if pat ≠ [] ∧ hasPre pat s = true then trimAllGo pat fuel (s.drop pat.length)
    else s

/-- Rust `s.trim_start_matches(pat)`: strips every leading occurrence of
`pat` from `s` (an empty pattern strips nothing). -/
def trimAll (pat s : List Char) : List Char :=
  trimAllGo pat s.length s

/-- Keys of the in-memory filesystem: the `format!("{}", path.display())`
string of a path, as a character list. -/
abbrev Key := List Char

/-- Builds a key from a string literal. -/
def key (s : String) : Key := s.data

/-- The tagged entries of `MemoryFilesystem` (src/disk.rs lines 107-112). -/
inductive DEntry : Type
  | file (content : Option String)
  | dir
  | symlink
deriving DecidableEq

/-- The `crate::Error::Simple(&str)` values produced in src/disk.rs. -/
inductive FsErr : Type
  | simple (msg : String)
deriving DecidableEq

/-- The thread-local `HashMap<String, Entry>` state of `MemoryFilesystem`. -/
abbrev Disk := List (Key × DEntry)

/-- `MemoryFilesystem::remove` (src/disk.rs lines 207-224): collects every
stored key that has the argument as a raw string prefix (`starts_with`) and
deletes those entries; always returns `Ok(())`. -/
def MemoryFilesystem.remove (d : Disk) (k : Key) : Except FsErr Unit × Disk :=
  (Except.ok (), d.filter (fun kv => !(hasPre k kv.1)))

/-- One `PathBuf::push` step on the displayed path (src/disk.rs line 187):
pushing a component onto the running buffer.  The buffer starts empty; the
root component displays as "/" and further components join with "/". -/
def pushComp (buf c : Key) : Key :=
  if buf = [] then c
  else if buf.getLast? = some '/' then buf ++ c
  else buf ++ '/' :: c

/-- The sequence of displayed prefixes visited by the `mkdir_all` loop when
its component iterator yields `parts`, starting from buffer `buf`. -/
def mkdirKeysFrom (buf : Key) : List Key → List Key
  | [] => []
  | c :: rest => pushComp buf c :: mkdirKeysFrom (pushComp buf c) rest

/-- The loop body of `MemoryFilesystem::mkdir_all` (src/disk.rs lines
186-201): for each component, extend the buffer, record a conflict error if
the key currently holds a file or symlink, and unconditionally insert a
directory entry at the key.  The (possibly error) `result` is returned at
the end, after every insertion has happened. -/
def mkdirLoop (d : Disk) (buf : Key) (res : Except FsErr Unit) :
    List Key → Except FsErr Unit × Disk
  | [] => (res, d)
  | c :: rest =>
    let k := pushComp buf c
    let res' : Except FsErr Unit :=
      match lookupK d k with
      | some (DEntry.file _) => Except.error (FsErr.simple "file existed")
      | some DEntry.symlink => Except.error (FsErr.simple "symlink existed")
      | _ => res
    mkdirLoop (insertK d k DEntry.dir) k res' rest

/-- `MemoryFilesystem::mkdir_all` (src/disk.rs lines 177-205), taking the
path's component list (the sequence produced by `PathBuf::components`). -/
def mkdir_all (d : Disk) (parts : List Key) : Except FsErr Unit × Disk :=
  mkdirLoop d [] (Except.ok ()) parts

/-- The error value computed into the local `result` variable of
`MemoryFilesystem::copy` (src/disk.rs lines 232-243).  The source assigns
`Err(crate::Error::Simple("copy src didn't exist"))` to `result` when the
source key is absent — and then returns `Ok(())` unconditionally at line
265, discarding this value. -/
def copyInternalResult (d : Disk) (fromK : Key) : Except FsErr Unit :=
  match lookupK d fromK with
  | some _ => Except.ok ()
  | none => Except.error (FsErr.simple "copy src didn't exist")

/-- The second loop of `MemoryFilesystem::copy` (src/disk.rs lines 257-260):
for each snapshotted (source key, target key) pair, look the source key up
in the CURRENT map and insert its value at the target key.  The lookup
cannot fail (sources were present at snapshot time and nothing is deleted),
so the `none` branch is a formal no-op. -/
def copyFold (d : Disk) : List (Key × Key) → Disk
  | [] => d
  | ft :: rest =>
    match lookupK d ft.1 with
    | some v => copyFold (insertK d ft.2 v) rest
    | none => copyFold d rest

/-- The snapshot `to_save` of `MemoryFilesystem::copy` (src/disk.rs lines
248-255): every stored key having `fromK` as a raw string prefix, paired
with the target key obtained by appending to `toK` the suffix left after
`trim_start_matches(&from_key)` (which strips every leading repetition of
`fromK`). -/
def copySaveList (d : Disk) (fromK toK : Key) : List (Key × Key) :=
  (d.filter (fun kv => hasPre fromK kv.1)).map
    (fun kv => (kv.1, toK ++ trimAll fromK kv.1))

/-- `MemoryFilesystem::copy` (src/disk.rs lines 226-266).  When the source
key is absent the map is untouched; when the source entry is a directory all
string-prefix-matching keys are rewritten to the target; finally the source
entry itself is inserted at the target key.  The returned value is the
literal `Ok(())` of line 265: the internally computed error
(`copyInternalResult`) is discarded by the source. -/
def MemoryFilesystem.copy (d : Disk) (fromK toK : Key) :
    Except FsErr Unit × Disk :=
  match lookupK d fromK with
  | none => (Except.ok (), d)
  | some e =>
    let d1 : Disk :=
      match e with
      | DEntry.dir => copyFold d (copySaveList d fromK toK)
      | _ => d
    (Except.ok (), insertK d1 toK e)

end Disk

section LinkEngine

/-!
The link engine (`link`, src/main.rs lines 313-385) calls `std::fs` and
`Path` probes directly.  We model absolute paths as lists of path segments
(`LPath`, the root being `[]`) and the filesystem the engine mutates as a
segment-keyed map to tagged nodes, following the repository's own
filesystem-capability model (src/disk.rs): `exists` is key presence,
`is_dir`/`is_file` test the stored tag, `symlink` inserts a symlink node,
and `create_dir_all` follows the makeDirectoryTree contract of the spec
(creates every missing ancestor as a directory, fails on a segment that
exists as a non-directory, without overwriting it).  The two interactive
prompts (`Confirmation`, `Select` from dialoguer) are modelled as oracles
`Nat → Bool` / `Nat → Nat` consumed through counters `ci` / `si`; a counter
increment is exactly one prompt shown to the user.
-/

/-- A path as its list of segments below the root. -/
abbrev LPath := List String

/-- Node kinds of the filesystem the link engine manipulates. -/
inductive FsNode : Type
  | file
  | dir
  | symlink
deriving DecidableEq

/-- Filesystem state for the link engine. -/
abbrev LFs := List (LPath × FsNode)

/-- Errors the modelled link pass can produce: `fs::create_dir_all` hitting
an existing non-directory segment (propagated by the `?` at src/main.rs
line 350). -/
inductive LinkErr : Type
  | pathConflict
deriving DecidableEq

/-- A bundle entry (src/main.rs lines 61-65); `local` is a Lean keyword so
the field is spelled `loc`.  Paths are modelled as segment lists. -/
structure Entry : Type where
  loc : LPath
  remote : LPath
deriving DecidableEq

/-- A bundle (src/main.rs lines 55-59). -/
structure Bundle : Type where
  id : String
  entries : List Entry
deriving DecidableEq

/-- The lock file contents (src/main.rs lines 67-70). -/
structure Lock : Type where
  bundles : List Bundle
deriving DecidableEq

/-- `Path::parent` on a segment path: `none` at the root, otherwise the
path without its last segment. -/
def parentOf (p : LPath) : Option LPath :=
  if p = [] then none else some p.dropLast

/-- `path.is_dir()` under the capability model. -/
def isDirL (fs : LFs) (p : LPath) : Bool :=
  decide (lookupK fs p = some FsNode.dir)

/-- `path.is_file()` under the capability model. -/
def isFileL (fs : LFs) (p : LPath) : Bool :=
  decide (lookupK fs p = some FsNode.file)

/-- `path.exists()` under the capability model. -/
def existsL (fs : LFs) (p : LPath) : Bool :=
  (lookupK fs p).isSome

/-- The nonempty prefixes of `p`, shortest first: the chain of directories
`fs::create_dir_all` visits. -/
def ancestorChain (p : LPath) : List LPath :=
  (List.range p.length).map (fun i => p.take (i + 1))

/-- The proper prefixes of `p` (everything in `ancestorChain p` except `p`
itself). -/
def properChain (p : LPath) : List LPath :=
  (List.range (p.length - 1)).map (fun i => p.take (i + 1))

/-- Walks a chain of directories, creating missing ones and failing at the
first segment that exists as a non-directory (which is left in place);
directories created before the failure are kept. -/
def createDirAllFrom (fs : LFs) : List LPath → Except LinkErr Unit × LFs
  | [] => (Except.ok (), fs)
  | q :: rest =>
    match lookupK fs q with
    | some FsNode.dir => createDirAllFrom fs rest
    | some _ => (Except.error LinkErr.pathConflict, fs)
    | none => createDirAllFrom (insertK fs q FsNode.dir) rest

/-- `fs::create_dir_all`, per the makeDirectoryTree contract of spec §4.1. -/
def create_dir_all (fs : LFs) (p : LPath) : Except LinkErr Unit × LFs :=
  createDirAllFrom fs (ancestorChain p)

/-- `fs::remove_dir_all` at `p`: deletes `p` and everything nested under it
(segment-wise subtree). -/
def removeSubtree (fs : LFs) (p : LPath) : LFs :=
  fs.filter (fun kv => !(hasPre p kv.1))

/-- The ancestor-preparation phase of one link-loop iteration (src/main.rs
lines 330-352): if the remote's parent is a file, ask the confirmation
prompt and delete the file when the user accepts; then, if the parent is
not a directory, create the full ancestor chain. -/
def linkPrep (oc : Nat → Bool) (fs : LFs) (ci : Nat) (r : LPath) :
    Except LinkErr Unit × LFs × Nat :=
  match parentOf r with
  | none => (Except.ok (), fs, ci)
  | some par =>
    let st : LFs × Nat :=
      if isFileL fs par then
        (if oc ci then eraseKey fs par else fs, ci + 1)
      else (fs, ci)
    if isDirL st.1 par then (Except.ok (), st.1, st.2)
    else
      match create_dir_all st.1 par with
      | (Except.ok _, fs2) => (Except.ok (), fs2, st.2)
      | (Except.error err, fs2) => (Except.error err, fs2, st.2)

/-- The delete-before-overwrite step (src/main.rs lines 371-378): remove
whatever currently occupies the remote, recursively for a directory; a
symlink node matches neither probe and is left for `symlink` to replace. -/
def linkOverwrite (fs : LFs) (r : LPath) : LFs :=
  if isDirL fs r then removeSubtree fs r
  else if isFileL fs r then eraseKey fs r
  else fs

/-- One iteration of the link loop (src/main.rs lines 323-382) for entry
`e`.  Returns the (possibly error) outcome together with the filesystem,
both prompt counters and the `overwrite_all` flag after the iteration; the
payload is `some e` when the entry was symlinked and pushed onto the
result, `none` when the user chose "skip" (`continue`). -/
def linkStep (oc : Nat → Bool) (os : Nat → Nat) (ow : List LPath)
    (fs : LFs) (ci si : Nat) (owAll : Bool) (e : Entry) :
    Except LinkErr (Option Entry) × LFs × Nat × Nat × Bool :=
  match linkPrep oc fs ci e.remote with
  | (Except.error err, fs1, ci1) => (Except.error err, fs1, ci1, si, owAll)
  | (Except.ok _, fs1, ci1) =>
    if existsL fs1 e.remote then
      if owAll || decide (e.remote ∈ ow) then
        (Except.ok (some e),
         insertK (linkOverwrite fs1 e.remote) e.remote FsNode.symlink,
         ci1, si, owAll)
      else
        let sel := os si
        if sel = 0 then (Except.ok none, fs1, ci1, si + 1, owAll)
        else
          let owAll2 := if sel = 2 then true else owAll
          (Except.ok (some e),
           insertK (linkOverwrite fs1 e.remote) e.remote FsNode.symlink,
           ci1, si + 1, owAll2)
    else
      (Except.ok (some e), insertK fs1 e.remote FsNode.symlink, ci1, si, owAll)

/-- The link loop over the bundle's entries (src/main.rs lines 321-384),
threading filesystem, prompt counters and the `overwrite_all` flag; a step
error aborts the pass immediately (`?`), discarding the accumulated result
but keeping all filesystem mutations. -/
def linkLoop (oc : Nat → Bool) (os : Nat → Nat) (ow : List LPath)
    (fs : LFs) (ci si : Nat) (owAll : Bool) :
    List Entry → Except LinkErr (List Entry) × LFs × Nat × Nat
  | [] => (Except.ok [], fs, ci, si)
  | e :: rest =>
    match linkStep oc os ow fs ci si owAll e with
    | (Except.error err, fs1, ci1, si1, _) => (Except.error err, fs1, ci1, si1)
    | (Except.ok oe, fs1, ci1, si1, owAll1) =>
      match linkLoop oc os ow fs1 ci1 si1 owAll1 rest with
      | (Except.error err, fs2, ci2, si2) => (Except.error err, fs2, ci2, si2)
      | (Except.ok lst, fs2, ci2, si2) =>
        (Except.ok (match oe with | some e1 => e1 :: lst | none => lst),
         fs2, ci2, si2)

/-- `link(bundle, overwrite, overwrite_all)` (src/main.rs lines 313-385),
started with fresh prompt counters. -/
def link (oc : Nat → Bool) (os : Nat → Nat) (bundle : Bundle)
    (ow : List LPath) (owAll : Bool) (fs : LFs) :
    Except LinkErr (List Entry) × LFs × Nat × Nat :=
  linkLoop oc os ow fs 0 0 owAll bundle.entries

/-- States that the remote's parent needs no preparation: the remote is at
the root, or its parent already exists as a directory (the normal situation
for a dotfile remote). -/
def parentReady (fs : LFs) (r : LPath) : Bool :=
  match parentOf r with
  | none => true
  | some par => decide (lookupK fs par = some FsNode.dir)

/-- The lockfile update performed by `cmd_add` (src/main.rs lines 272-274):
the new record is PUSHED onto `lockfile.bundles` without removing any prior
record for the same id. -/
def cmd_add_update_lock (lock : Lock) (b : Bundle) (linked : List Entry) :
    Lock :=
  Lock.mk (lock.bundles ++ [Bundle.mk b.id linked])

/-- The lockfile update performed by `cmd_link` (src/main.rs lines 305-308):
`retain` drops every record whose id equals the bundle name, then the new
record (with the metadata bundle's id and the linked entries) is pushed. -/
def cmd_link_update_lock (lock : Lock) (bundleName : String) (b : Bundle)
    (linked : List Entry) : Lock :=
  Lock.mk ((lock.bundles.filter (fun it => decide (it.id ≠ bundleName))) ++
    [Bundle.mk b.id linked])

/-- The pre-authorization set extracted by `cmd_link` (src/main.rs lines
282-290): the remotes of the previous lock record for the bundle name, or
empty when there is none. -/
def previous_remotes (lock : Lock) (bundleName : String) : List LPath :=
  match lock.bundles.find? (fun it => decide (it.id = bundleName)) with
  | some prev => prev.entries.map (fun it => it.remote)
  | none => []

end LinkEngine

section GetName

/-- The error of `get_name`; the source's `Error::LastComponentInvalid`
carries the displayed path, which no claim inspects, so the payload is
dropped here. -/
inductive NameErr : Type
  | lastComponentInvalid
deriving DecidableEq

/-- `get_name` (src/main.rs lines 170-186 and src/util.rs lines 12-28),
taking the path's component list: the last component, with
`trim_start_matches(".")` applied — which removes EVERY leading dot, not
just one.  For a single-character pattern, repeatedly stripping the leading
"." is exactly `dropWhile (· = '.')`. -/
def get_name (comps : List String) : Except NameErr String :=
  match comps.getLast? with
  | none => Except.error NameErr.lastComponentInvalid
  | some s => Except.ok (String.mk (s.data.dropWhile (fun c => decide (c = '.'))))

end GetName

/-!
## Theorems

Shared lemmas about the embedded operations, followed by one theorem per
claim (with witnesses and counterexamples).
-/

section PreLemmas

theorem hasPre_append_self {α : Type} [DecidableEq α] (pat rest : List α) :
    hasPre pat (pat ++ rest) = true := by
  induction pat with
  | nil => rfl
  | cons a pa ih => simp [hasPre, ih]

theorem hasPre_nil_pat {α : Type} [DecidableEq α] (s : List α) :
    hasPre ([] : List α) s = true := rfl

theorem trimAllGo_of_neg (pat s : List Char) (h : hasPre pat s = false) :
    ∀ fuel, trimAllGo pat fuel s = s := by
  intro fuel
  cases fuel with
  | zero => rfl
  | succ n =>
    simp only [trimAllGo]
    rw [if_neg]
    intro hc
    rw [h] at hc
    exact absurd hc.2 (by simp)

theorem trimAll_append_self (pat p : List Char) (hne : pat ≠ [])
    (h : hasPre pat p = false) : trimAll pat (pat ++ p) = p := by
  unfold trimAll
  obtain ⟨a, pa, rfl⟩ : ∃ a pa, pat = a :: pa := by
    cases pat with
    | nil => exact absurd rfl hne
    | cons a pa => exact ⟨a, pa, rfl⟩
  have hlen : ((a :: pa) ++ p).length = (pa.length + p.length) + 1 := by
    simp [List.length_append]
    try omega
  rw [hlen]
  simp only [trimAllGo]
  rw [if_pos ⟨hne, hasPre_append_self _ _⟩]
  rw [show ((a :: pa) ++ p).drop (a :: pa).length = p from List.drop_left _ _]
  exact trimAllGo_of_neg _ _ h _

end PreLemmas

section CopyFoldLemmas

theorem copyFold_append (L1 L2 : List (Key × Key)) :
    ∀ d : Disk, copyFold d (L1 ++ L2) = copyFold (copyFold d L1) L2 := by
  induction L1 with
  | nil => intro d; rfl
  | cons ft rest ih =>
    intro d
    simp only [List.cons_append, copyFold]
    cases lookupK d ft.1 with
    | none => exact ih d
    | some v => exact ih (insertK d ft.2 v)

theorem lookupK_copyFold_no_target (L : List (Key × Key)) (x : Key)
    (h : ∀ ft ∈ L, ft.2 ≠ x) :
    ∀ d : Disk, lookupK (copyFold d L) x = lookupK d x := by
  induction L with
  | nil => intro d; rfl
  | cons ft rest ih =>
    intro d
    simp only [copyFold]
    have hx : ft.2 ≠ x := h ft (List.mem_cons_self _ _)
    have hrest : ∀ ft1 ∈ rest, ft1.2 ≠ x :=
      fun ft1 hm => h ft1 (List.mem_cons_of_mem _ hm)
    cases lookupK d ft.1 with
    | none => exact ih hrest d
    | some v =>
      rw [ih hrest (insertK d ft.2 v)]
      exact lookupK_insertK_ne _ _ _ _ (Ne.symm hx)

end CopyFoldLemmas

section MkdirLemmas

theorem mkdirLoop_preserves_dir (parts : List Key) :
    ∀ (d : Disk) (buf : Key) (res : Except FsErr Unit) (k : Key),
      lookupK d k = some DEntry.dir →
      lookupK (mkdirLoop d buf res parts).2 k = some DEntry.dir := by
  induction parts with
  | nil => intro d buf res k h; exact h
  | cons c rest ih =>
    intro d buf res k h
    simp only [mkdirLoop]
    apply ih
    by_cases hk : k = pushComp buf c
    · subst hk; exact lookupK_insertK_self _ _ _
    · rw [lookupK_insertK_ne _ _ _ _ hk]; exact h

theorem mkdirLoop_keys_dir (parts : List Key) :
    ∀ (d : Disk) (buf : Key) (res : Except FsErr Unit),
      ∀ k ∈ mkdirKeysFrom buf parts,
        lookupK (mkdirLoop d buf res parts).2 k = some DEntry.dir := by
  induction parts with
  | nil => intro d buf res k h; simp [mkdirKeysFrom] at h
  | cons c rest ih =>
    intro d buf res k h
    simp only [mkdirKeysFrom, List.mem_cons] at h
    rcases h with h | h
    · subst h
      simp only [mkdirLoop]
      exact mkdirLoop_preserves_dir rest _ _ _ _ (lookupK_insertK_self _ _ _)
    · simp only [mkdirLoop]
      exact ih _ _ _ k h

theorem mkdirLoop_res_of_dirs (parts : List Key) :
    ∀ (d : Disk) (buf : Key) (res : Except FsErr Unit),
      (∀ k ∈ mkdirKeysFrom buf parts, lookupK d k = some DEntry.dir) →
      (mkdirLoop d buf res parts).1 = res := by
  induction parts with
  | nil => intro d buf res _; rfl
  | cons c rest ih =>
    intro d buf res h
    have hhead : lookupK d (pushComp buf c) = some DEntry.dir :=
      h _ (by simp [mkdirKeysFrom])
    simp only [mkdirLoop, hhead]
    apply ih
    intro k hk
    by_cases hkk : k = pushComp buf c
    · subst hkk; exact lookupK_insertK_self _ _ _
    · rw [lookupK_insertK_ne _ _ _ _ hkk]
      exact h k (by simp [mkdirKeysFrom, hk])

end MkdirLemmas

section LinkLemmas

theorem createDirAllFrom_dirs_then_file (qs : List LPath) :
    ∀ (fs : LFs) (q0 : LPath),
      (∀ q ∈ qs, lookupK fs q = some FsNode.dir) →
      lookupK fs q0 = some FsNode.file →
      createDirAllFrom fs (qs ++ [q0]) = (Except.error LinkErr.pathConflict, fs) := by
  induction qs with
  | nil =>
    intro fs q0 _ h0
    simp [createDirAllFrom, h0]
  | cons q qs1 ih =>
    intro fs q0 h h0
    have hq : lookupK fs q = some FsNode.dir := h q (List.mem_cons_self _ _)
    simp only [List.cons_append, createDirAllFrom, hq]
    exact ih fs q0 (fun q1 hm => h q1 (List.mem_cons_of_mem _ hm)) h0

theorem ancestorChain_eq (p : LPath) (h : p ≠ []) :
    ancestorChain p = properChain p ++ [p] := by
  obtain ⟨n, hn⟩ : ∃ n, p.length = n + 1 := by
    cases hp : p.length with
    | zero => exact absurd (List.length_eq_zero.mp hp) h
    | succ n => exact ⟨n, rfl⟩
  unfold ancestorChain properChain
  rw [hn, List.range_succ, List.map_append]
  have hn1 : n + 1 - 1 = n := rfl
  rw [hn1]
  have ht : p.take (n + 1) = p := by rw [← hn]; exact List.take_length p
  simp [ht]

theorem create_dir_all_parent_file (fs : LFs) (par : LPath) (hne : par ≠ [])
    (hanc : ∀ q ∈ properChain par, lookupK fs q = some FsNode.dir)
    (hfile : lookupK fs par = some FsNode.file) :
    create_dir_all fs par = (Except.error LinkErr.pathConflict, fs) := by
  unfold create_dir_all
  rw [ancestorChain_eq par hne]
  exact createDirAllFrom_dirs_then_file _ fs par hanc hfile

theorem linkPrep_ready (oc : Nat → Bool) (fs : LFs) (ci : Nat) (r : LPath)
    (h : parentReady fs r = true) :
    linkPrep oc fs ci r = (Except.ok (), fs, ci) := by
  unfold parentReady at h
  unfold linkPrep
  cases hp : parentOf r with
  | none => rfl
  | some par =>
    rw [hp] at h
    have hdir : lookupK fs par = some FsNode.dir := of_decide_eq_true h
    have hnf : isFileL fs par = false := by simp [isFileL, hdir]
    have hd : isDirL fs par = true := by simp [isDirL, hdir]
    simp [hnf, hd]

theorem parentReady_congr (fs1 fs : LFs) (r : LPath)
    (h : ∀ x, lookupK fs1 x = lookupK fs x) :
    parentReady fs1 r = parentReady fs r := by
  unfold parentReady
  cases parentOf r with
  | none => rfl
  | some par => simp [h par]

end LinkLemmas

section ListHelpers

theorem find?_append_of_none {α : Type} (p : α → Bool) (l1 l2 : List α)
    (h : ∀ x ∈ l1, p x = false) :
    List.find? p (l1 ++ l2) = List.find? p l2 := by
  induction l1 with
  | nil => rfl
  | cons a rest ih =>
    have ha : p a = false := h a (List.mem_cons_self _ _)
    simp only [List.cons_append, List.find?, ha]
    exact ih (fun x hm => h x (List.mem_cons_of_mem _ hm))

theorem takeWhile_pred_true {α : Type} (q : α → Bool) (l : List α) (x : α)
    (h : x ∈ List.takeWhile q l) : q x = true := by
  induction l with
  | nil => simp [List.takeWhile] at h
  | cons a rest ih =>
    by_cases hq : q a = true
    · simp only [List.takeWhile, hq, List.mem_cons] at h
      rcases h with h | h
      · subst h; exact hq
      · exact ih h
    · have hq' : q a = false := by
        cases hqa : q a
        · rfl
        · exact absurd hqa hq
      simp [List.takeWhile, hq'] at h

theorem dropWhile_head_not {α : Type} (q : α → Bool) (l : List α) (c : α)
    (t : List α) (h : List.dropWhile q l = c :: t) : q c = false := by
  induction l with
  | nil => simp [List.dropWhile] at h
  | cons a rest ih =>
    by_cases hq : q a = true
    · simp only [List.dropWhile, hq] at h
      exact ih h
    · have hq' : q a = false := by
        cases hqa : q a
        · rfl
        · exact absurd hqa hq
      simp only [List.dropWhile, hq'] at h
      cases h
      exact hq'

end ListHelpers

section Claims

/-- C1, counterexample: the claim says every operation that writes a
bundle's record into the Lock removes any prior record with that id first,
but `cmd_add` (src/main.rs lines 272-274) only pushes — two Add operations
for bundle id "x" leave the Lock with two records with id "x". -/
theorem C1_add_duplicates_lock_record :
    ((cmd_add_update_lock
        (cmd_add_update_lock (Lock.mk []) (Bundle.mk "x" []) [])
        (Bundle.mk "x" []) []).bundles.map Bundle.id) = ["x", "x"] ∧
    ¬ ((cmd_add_update_lock
        (cmd_add_update_lock (Lock.mk []) (Bundle.mk "x" []) [])
        (Bundle.mk "x" []) []).bundles.map Bundle.id).Nodup :=
  ⟨rfl, by decide⟩

/-- C1, amended: only `cmd_link` removes the prior record (retain by id,
then push), so Link updates preserve the at-most-one-record-per-id
invariant of the Lock; `cmd_add` pushes without removing and can duplicate
an id. -/
theorem C1_link_update_preserves_unique_ids :
    ∀ (lock : Lock) (bundleName : String) (b : Bundle) (linked : List Entry),
      (lock.bundles.map Bundle.id).Nodup → b.id = bundleName →
      ((cmd_link_update_lock lock bundleName b linked).bundles.map
        Bundle.id).Nodup := by
  intro lock bundleName b linked hnd hid
  unfold cmd_link_update_lock
  simp only [List.map_append, List.map_cons, List.map_nil]
  have hsub : List.Sublist
      ((lock.bundles.filter
        (fun it => decide (it.id ≠ bundleName))).map Bundle.id)
      (lock.bundles.map Bundle.id) :=
    List.Sublist.map _ (List.filter_sublist _)
  have h1 : ((lock.bundles.filter
      (fun it => decide (it.id ≠ bundleName))).map Bundle.id).Nodup :=
    hnd.sublist hsub
  have h2 : b.id ∉ (lock.bundles.filter
      (fun it => decide (it.id ≠ bundleName))).map Bundle.id := by
    intro hmem
    obtain ⟨bu, hbu, hbid⟩ := List.mem_map.mp hmem
    have hf := List.of_mem_filter hbu
    exact (of_decide_eq_true hf) (hbid.trans hid)
  exact h1.append (List.nodup_singleton _)
    (List.disjoint_singleton.mpr h2)

theorem C1_link_update_preserves_unique_ids_witness :
    ((Lock.mk [Bundle.mk "x" [], Bundle.mk "y" []]).bundles.map
      Bundle.id).Nodup ∧
    ((cmd_link_update_lock (Lock.mk [Bundle.mk "x" [], Bundle.mk "y" []])
        "x" (Bundle.mk "x" []) []).bundles.map Bundle.id).Nodup :=
  ⟨by decide,
   C1_link_update_preserves_unique_ids
     (Lock.mk [Bundle.mk "x" [], Bundle.mk "y" []]) "x" (Bundle.mk "x" [])
     [] (by decide) rfl⟩

/-- C2: the claim says `remove(path)` deletes exactly the subtree at
`path`, leaving the unrelated sibling `/srcOther` unchanged, but
`MemoryFilesystem::remove` (src/disk.rs lines 207-224) matches stored keys
by raw string prefix, so removing "/src" also deletes "/srcOther". -/
theorem C2_remove_deletes_unrelated_sibling :
    (MemoryFilesystem.remove
        [(key "/src", DEntry.dir), (key "/src/x", DEntry.file (some "a")),
         (key "/srcOther", DEntry.file (some "keep"))] (key "/src")).1 =
      Except.ok () ∧
    lookupK
      ([(key "/src", DEntry.dir), (key "/src/x", DEntry.file (some "a")),
        (key "/srcOther", DEntry.file (some "keep"))] : Disk)
      (key "/srcOther") = some (DEntry.file (some "keep")) ∧
    lookupK (MemoryFilesystem.remove
        [(key "/src", DEntry.dir), (key "/src/x", DEntry.file (some "a")),
         (key "/srcOther", DEntry.file (some "keep"))] (key "/src")).2
      (key "/srcOther") = none :=
  ⟨rfl, by decide, by decide⟩

/-- C3: the claim says `copy(from, to)` fails with `SourceNotFound` when
`from` is absent, but `MemoryFilesystem::copy` (src/disk.rs lines 226-266)
computes that error into a local `result` variable and then returns the
literal `Ok(())` of line 265, discarding it — the call succeeds and the map
is untouched. -/
theorem C3_copy_returns_ok_despite_missing_source :
    copyInternalResult ([] : Disk) (key "/a") =
      Except.error (FsErr.simple "copy src didn't exist") ∧
    MemoryFilesystem.copy ([] : Disk) (key "/a") (key "/b") =
      (Except.ok (), ([] : Disk)) :=
  ⟨rfl, rfl⟩

/-- C9, counterexample: the claim says that when no entry exists at `path`
the removal leaves the filesystem unchanged, but removing "/src" from a
state holding only "/src/x" (no entry at "/src" itself) deletes "/src/x". -/
theorem C9_remove_on_absent_path_mutates_state :
    lookupK ([(key "/src/x", DEntry.file (some "a"))] : Disk) (key "/src") =
      none ∧
    (MemoryFilesystem.remove [(key "/src/x", DEntry.file (some "a"))]
      (key "/src")).1 = Except.ok () ∧
    lookupK ([(key "/src/x", DEntry.file (some "a"))] : Disk)
      (key "/src/x") = some (DEntry.file (some "a")) ∧
    lookupK (MemoryFilesystem.remove [(key "/src/x", DEntry.file (some "a"))]
      (key "/src")).2 (key "/src/x") = none :=
  ⟨by decide, rfl, by decide, by decide⟩

/-- C9, amended: `remove(path)` always returns success; it deletes every
stored entry whose key has `path` as a raw string prefix, so the state is
left unchanged exactly when no stored key has `path` as a string prefix —
merely having no entry at `path` itself is not sufficient. -/
theorem C9_remove_total_and_noop_without_prefixed_keys :
    ∀ (d : Disk) (k : Key),
      (MemoryFilesystem.remove d k).1 = Except.ok () ∧
      ((∀ kv ∈ d, hasPre k kv.1 = false) →
        (MemoryFilesystem.remove d k).2 = d) := by
  intro d k
  refine ⟨rfl, fun h => ?_⟩
  unfold MemoryFilesystem.remove
  simp only
  rw [List.filter_eq_self.mpr]
  intro kv hm
  simp [h kv hm]

theorem C9_remove_total_and_noop_without_prefixed_keys_witness :
    (∀ kv ∈ ([(key "/a", DEntry.dir)] : Disk),
      hasPre (key "/b") kv.1 = false) ∧
    (MemoryFilesystem.remove [(key "/a", DEntry.dir)] (key "/b")).2 =
      [(key "/a", DEntry.dir)] :=
  ⟨by decide,
   (C9_remove_total_and_noop_without_prefixed_keys
     [(key "/a", DEntry.dir)] (key "/b")).2 (by decide)⟩

/-- C10: after any `mkdir_all` call — returning success or the conflict
error — every displayed prefix of the path maps to a directory entry (a
conflicting file or symlink at a prefix is overwritten even though an error
is returned), and an immediately repeated call succeeds. -/
theorem C10_mkdir_all_forces_dirs_and_repeat_succeeds :
    ∀ (d : Disk) (parts : List Key),
      (∀ k ∈ mkdirKeysFrom [] parts,
        lookupK (mkdir_all d parts).2 k = some DEntry.dir) ∧
      (mkdir_all (mkdir_all d parts).2 parts).1 = Except.ok () := by
  intro d parts
  refine ⟨fun k hk => mkdirLoop_keys_dir parts d [] (Except.ok ()) k hk, ?_⟩
  exact mkdirLoop_res_of_dirs parts _ [] (Except.ok ())
    (fun k hk => mkdirLoop_keys_dir parts d [] (Except.ok ()) k hk)

theorem C10_mkdir_all_forces_dirs_and_repeat_succeeds_witness :
    (key "/a") ∈ mkdirKeysFrom [] [key "/", key "a", key "b"] ∧
    (mkdir_all [(key "/a", DEntry.file (some "f"))]
      [key "/", key "a", key "b"]).1 =
        Except.error (FsErr.simple "file existed") ∧
    lookupK (mkdir_all [(key "/a", DEntry.file (some "f"))]
      [key "/", key "a", key "b"]).2 (key "/a") = some DEntry.dir ∧
    (mkdir_all (mkdir_all [(key "/a", DEntry.file (some "f"))]
        [key "/", key "a", key "b"]).2
      [key "/", key "a", key "b"]).1 = Except.ok () :=
  ⟨by decide, rfl,
   (C10_mkdir_all_forces_dirs_and_repeat_succeeds
     [(key "/a", DEntry.file (some "f"))] [key "/", key "a", key "b"]).1
     (key "/a") (by decide),
   (C10_mkdir_all_forces_dirs_and_repeat_succeeds
     [(key "/a", DEntry.file (some "f"))] [key "/", key "a", key "b"]).2⟩

/-- C5, counterexample: the claim says a final component beginning with
several dots loses only the first one, but `get_name` (src/main.rs lines
170-186, src/util.rs lines 12-28) applies `trim_start_matches(".")`, which
strips every leading dot: "..bashrc" becomes "bashrc", not ".bashrc". -/
theorem C5_get_name_strips_second_dot_too :
    (get_name ["home", "u", "..bashrc"]).toOption = some "bashrc" ∧
    (get_name ["home", "u", "..bashrc"]).toOption ≠ some ".bashrc" :=
  ⟨by decide, by decide⟩

/-- C5, amended: the storage-local name is the path's final component with
EVERY leading dot removed and the rest of the name unchanged: the final
component splits as a (possibly empty) run of dots followed by the
returned name, which does not start with a dot. -/
theorem C5_get_name_strips_all_leading_dots :
    ∀ (comps : List String) (s : String), comps.getLast? = some s →
      ∃ (r : String) (k : Nat), get_name comps = Except.ok r ∧
        s.data = List.replicate k '.' ++ r.data ∧
        r.data.head? ≠ some '.' := by
  intro comps s h
  refine ⟨String.mk (s.data.dropWhile (fun c => decide (c = '.'))),
    (s.data.takeWhile (fun c => decide (c = '.'))).length, ?_, ?_, ?_⟩
  · unfold get_name
    rw [h]
  · have htd := List.takeWhile_append_dropWhile
      (p := fun c => decide (c = '.')) (l := s.data)
    have hrep : s.data.takeWhile (fun c => decide (c = '.')) =
        List.replicate
          (s.data.takeWhile (fun c => decide (c = '.'))).length '.' := by
      apply List.eq_replicate_iff.mpr
      refine ⟨rfl, ?_⟩
      intro ch hch
      have hp := takeWhile_pred_true (fun c => decide (c = '.')) s.data ch hch
      exact of_decide_eq_true hp
    show s.data = List.replicate
      (s.data.takeWhile (fun c => decide (c = '.'))).length '.' ++
      s.data.dropWhile (fun c => decide (c = '.'))
    rw [← hrep]
    exact htd.symm
  · show (s.data.dropWhile (fun c => decide (c = '.'))).head? ≠ some '.'
    cases hd : s.data.dropWhile (fun c => decide (c = '.')) with
    | nil => simp
    | cons c t =>
      have hnc := dropWhile_head_not _ _ _ _ hd
      have hc : c ≠ '.' := fun hcc => by simp [hcc] at hnc
      simp [hc]

theorem C5_get_name_strips_all_leading_dots_witness :
    ([".bashrc"] : List String).getLast? = some ".bashrc" ∧
    (∃ (r : String) (k : Nat), get_name [".bashrc"] = Except.ok r ∧
      (".bashrc" : String).data = List.replicate k '.' ++ r.data ∧
      r.data.head? ≠ some '.') :=
  ⟨by decide, C5_get_name_strips_all_leading_dots [".bashrc"] ".bashrc"
    (by decide)⟩

/-- C4, counterexample: the claim says that for EVERY relative descendant
path p under the copied directory, the entry at to/p equals the entry at
from/p — but `copy` builds each target key with
`trim_start_matches(&from_key)`, which strips every leading repetition of
the source key: copying "/src" holding "/src/src/x" to "/dst" files the
entry at "/dst/x" instead of "/dst/src/x". -/
theorem C4_copy_misplaces_repeated_component :
    lookupK ([(key "/src", DEntry.dir), (key "/src/src", DEntry.dir),
        (key "/src/src/x", DEntry.file (some "c"))] : Disk)
      (key "/src/src/x") = some (DEntry.file (some "c")) ∧
    lookupK (MemoryFilesystem.copy
        [(key "/src", DEntry.dir), (key "/src/src", DEntry.dir),
         (key "/src/src/x", DEntry.file (some "c"))]
        (key "/src") (key "/dst")).2 (key "/dst/src/x") = none ∧
    lookupK (MemoryFilesystem.copy
        [(key "/src", DEntry.dir), (key "/src/src", DEntry.dir),
         (key "/src/src/x", DEntry.file (some "c"))]
        (key "/src") (key "/dst")).2 (key "/dst/x") =
      some (DEntry.file (some "c")) :=
  ⟨by decide, by decide, by decide⟩

/-- C4, amended: directory copy duplicates every stored key having the
source key as a raw string prefix to the target key plus the suffix left
after stripping every leading repetition of the source key.  For a
descendant whose relative path p does not itself begin with the source key
(so no repetition is stripped beyond the first) and whose target is not
aliased by another prefixed key, the entry at to ++ p equals the entry at
from ++ p, and the call succeeds. -/
theorem C4_copy_preserves_nonrepeating_descendants :
    ∀ (d : Disk) (fromK toK p : Key) (e : DEntry),
      (d.map Prod.fst).Nodup →
      lookupK d fromK = some DEntry.dir →
      lookupK d (fromK ++ p) = some e →
      p ≠ [] →
      hasPre fromK p = false →
      (∀ kv ∈ d, hasPre fromK kv.1 = true →
        toK ++ trimAll fromK kv.1 = toK ++ p → kv.1 = fromK ++ p) →
      (∀ kv ∈ d, hasPre fromK kv.1 = true →
        toK ++ trimAll fromK kv.1 ≠ fromK ++ p) →
      (MemoryFilesystem.copy d fromK toK).1 = Except.ok () ∧
      lookupK (MemoryFilesystem.copy d fromK toK).2 (toK ++ p) = some e := by
  intro d fromK toK p e hnd hdir h1 hp h3 h4 hcol
  have hfromne : fromK ≠ [] := by
    intro hf
    rw [hf] at h3
    rw [hasPre_nil_pat] at h3
    exact absurd h3 (by simp)
  have htrim : trimAll fromK (fromK ++ p) = p := trimAll_append_self _ _ hfromne h3
  have htne : toK ++ p ≠ toK := by
    intro hw
    have := congrArg List.length hw
    simp [List.length_append] at this
    exact hp this
  -- the source pair is in the snapshot, with target toK ++ p
  have hmem : (fromK ++ p, e) ∈ d := lookupK_some_mem _ _ _ h1
  have hpre : hasPre fromK (fromK ++ p) = true := hasPre_append_self _ _
  have hS : (fromK ++ p, toK ++ p) ∈ copySaveList d fromK toK := by
    unfold copySaveList
    apply List.mem_map.mpr
    refine ⟨(fromK ++ p, e), List.mem_filter.mpr ⟨hmem, hpre⟩, ?_⟩
    simp [htrim]
  -- characterize snapshot members
  have hSmem : ∀ q ∈ copySaveList d fromK toK,
      ∃ kv ∈ d, hasPre fromK kv.1 = true ∧
        q = (kv.1, toK ++ trimAll fromK kv.1) := by
    intro q hq
    unfold copySaveList at hq
    obtain ⟨kv, hkv, hg⟩ := List.mem_map.mp hq
    obtain ⟨hkvd, hkvp⟩ := List.mem_filter.mp hkv
    exact ⟨kv, hkvd, hkvp, hg.symm⟩
  -- snapshot first components are nodup
  have hSnd : ((copySaveList d fromK toK).map Prod.fst).Nodup := by
    unfold copySaveList
    have hmf : (List.map Prod.fst
          ((d.filter (fun kv => hasPre fromK kv.1)).map
            (fun kv => (kv.1, toK ++ trimAll fromK kv.1)))) =
        (d.filter (fun kv => hasPre fromK kv.1)).map Prod.fst := by
      rw [List.map_map]
      rfl
    rw [hmf]
    exact hnd.sublist (List.Sublist.map _ (List.filter_sublist _))
  -- decompose the snapshot around the source pair
  obtain ⟨L1, L2, hdec⟩ := List.append_of_mem hS
  rw [hdec] at hSnd
  rw [List.map_append, List.map_cons] at hSnd
  have hnm := (List.nodup_middle.mp hSnd)
  have hfst : (fromK ++ p) ∉ L1.map Prod.fst ++ L2.map Prod.fst :=
    (List.nodup_cons.mp hnm).1
  have hfst1 : ∀ q ∈ L1, q.1 ≠ fromK ++ p := by
    intro q hq hqe
    exact hfst (List.mem_append.mpr (Or.inl
      (List.mem_map.mpr ⟨q, hq, hqe⟩)))
  have hfst2 : ∀ q ∈ L2, q.1 ≠ fromK ++ p := by
    intro q hq hqe
    exact hfst (List.mem_append.mpr (Or.inr
      (List.mem_map.mpr ⟨q, hq, hqe⟩)))
  -- no pair of the snapshot targets the source key fromK ++ p
  have hnotgt : ∀ q ∈ copySaveList d fromK toK, q.2 ≠ fromK ++ p := by
    intro q hq
    obtain ⟨kv, hkvd, hkvp, rfl⟩ := hSmem q hq
    exact hcol kv hkvd hkvp
  -- pairs of L1 and L2 never target toK ++ p
  have hmemS1 : ∀ q ∈ L1, q ∈ copySaveList d fromK toK := by
    intro q hq
    rw [hdec]
    exact List.mem_append.mpr (Or.inl hq)
  have hmemS2 : ∀ q ∈ L2, q ∈ copySaveList d fromK toK := by
    intro q hq
    rw [hdec]
    exact List.mem_append.mpr (Or.inr (List.mem_cons_of_mem _ hq))
  have htgt1 : ∀ q ∈ L1, q.2 ≠ toK ++ p := by
    intro q hq hqe
    obtain ⟨kv, hkvd, hkvp, hqq⟩ := hSmem q (hmemS1 q hq)
    have hkv1 : kv.1 = fromK ++ p := by
      apply h4 kv hkvd hkvp
      rw [hqq] at hqe
      exact hqe
    exact hfst1 q hq (by rw [hqq]; exact hkv1)
  have htgt2 : ∀ q ∈ L2, q.2 ≠ toK ++ p := by
    intro q hq hqe
    obtain ⟨kv, hkvd, hkvp, hqq⟩ := hSmem q (hmemS2 q hq)
    have hkv1 : kv.1 = fromK ++ p := by
      apply h4 kv hkvd hkvp
      rw [hqq] at hqe
      exact hqe
    exact hfst2 q hq (by rw [hqq]; exact hkv1)
  have hnotgt1 : ∀ q ∈ L1, q.2 ≠ fromK ++ p :=
    fun q hq => hnotgt q (hmemS1 q hq)
  -- walk the fold
  have hfold : lookupK (copyFold d (copySaveList d fromK toK)) (toK ++ p) =
      some e := by
    rw [hdec, copyFold_append]
    have hL1 : lookupK (copyFold d L1) (fromK ++ p) = some e := by
      rw [lookupK_copyFold_no_target L1 _ hnotgt1 d]
      exact h1
    simp only [copyFold, hL1]
    rw [lookupK_copyFold_no_target L2 _ htgt2 _]
    exact lookupK_insertK_self _ _ _
  -- final insertion of the source entry at toK does not disturb toK ++ p
  unfold MemoryFilesystem.copy
  rw [hdir]
  refine ⟨rfl, ?_⟩
  simp only
  rw [lookupK_insertK_ne _ _ _ _ htne]
  exact hfold

theorem C4_copy_preserves_nonrepeating_descendants_witness :
    lookupK ([(key "/src", DEntry.dir), (key "/src/x", DEntry.file (some "a")),
        (key "/src/y", DEntry.dir), (key "/src/y/z", DEntry.file (some "c"))] :
        Disk) (key "/src" ++ key "/y/z") = some (DEntry.file (some "c")) ∧
    lookupK (MemoryFilesystem.copy
        [(key "/src", DEntry.dir), (key "/src/x", DEntry.file (some "a")),
         (key "/src/y", DEntry.dir), (key "/src/y/z", DEntry.file (some "c"))]
        (key "/src") (key "/dst")).2 (key "/dst" ++ key "/y/z") =
      some (DEntry.file (some "c")) :=
  ⟨by decide,
   (C4_copy_preserves_nonrepeating_descendants
     [(key "/src", DEntry.dir), (key "/src/x", DEntry.file (some "a")),
      (key "/src/y", DEntry.dir), (key "/src/y/z", DEntry.file (some "c"))]
     (key "/src") (key "/dst") (key "/y/z") (DEntry.file (some "c"))
     (by decide) (by decide) (by decide) (by decide) (by decide)
     (by decide) (by decide)).2⟩

/-- C6: when an entry's remote parent exists as a file, its grandparents
are directories, and the user declines the confirmation prompt, the link
pass returns an error immediately — the remaining entries (arbitrary
`rest`) are never processed, the filesystem is unchanged, and exactly the
one confirmation prompt was shown (src/main.rs lines 330-352: the declined
confirmation falls through to `fs::create_dir_all(parent)?`, which fails on
the file and aborts the invocation via `?`). -/
theorem C6_parent_file_decline_aborts_pass :
    ∀ (oc : Nat → Bool) (os : Nat → Nat) (ow : List LPath) (fs : LFs)
      (ci si : Nat) (owAll : Bool) (e : Entry) (rest : List Entry),
      e.remote.dropLast ≠ [] →
      lookupK fs e.remote.dropLast = some FsNode.file →
      (∀ q ∈ properChain e.remote.dropLast,
        lookupK fs q = some FsNode.dir) →
      oc ci = false →
      linkLoop oc os ow fs ci si owAll (e :: rest) =
        (Except.error LinkErr.pathConflict, fs, ci + 1, si) := by
  intro oc os ow fs ci si owAll e rest hpar hfile hanc hdecl
  have hrne : e.remote ≠ [] := by
    intro hr
    rw [hr] at hpar
    exact hpar rfl
  have hpo : parentOf e.remote = some e.remote.dropLast := by
    unfold parentOf
    rw [if_neg hrne]
  have hif : isFileL fs e.remote.dropLast = true := by simp [isFileL, hfile]
  have hnd : isDirL fs e.remote.dropLast = false := by simp [isDirL, hfile]
  have hcda := create_dir_all_parent_file fs e.remote.dropLast hpar hanc hfile
  have hstep : linkStep oc os ow fs ci si owAll e =
      (Except.error LinkErr.pathConflict, fs, ci + 1, si, owAll) := by
    unfold linkStep linkPrep
    rw [hpo]
    simp [hif, hdecl, hnd, hcda]
  simp only [linkLoop, hstep]

theorem C6_parent_file_decline_aborts_pass_witness :
    ((["home", "u", "bashrc"] : LPath).dropLast ≠ []) ∧
    lookupK ([(["home"], FsNode.dir), (["home", "u"], FsNode.file)] : LFs)
      (["home", "u", "bashrc"] : LPath).dropLast = some FsNode.file ∧
    (∀ q ∈ properChain (["home", "u", "bashrc"] : LPath).dropLast,
      lookupK ([(["home"], FsNode.dir), (["home", "u"], FsNode.file)] : LFs)
        q = some FsNode.dir) ∧
    linkLoop (fun _ => false) (fun _ => 0) []
      [(["home"], FsNode.dir), (["home", "u"], FsNode.file)] 0 0 false
      [Entry.mk ["st", "bashrc"] ["home", "u", "bashrc"],
       Entry.mk ["st", "o"] ["home", "v", "o"]] =
      (Except.error LinkErr.pathConflict,
       [(["home"], FsNode.dir), (["home", "u"], FsNode.file)], 1, 0) :=
  ⟨by decide, by decide, by decide,
   C6_parent_file_decline_aborts_pass (fun _ => false) (fun _ => 0) []
     [(["home"], FsNode.dir), (["home", "u"], FsNode.file)] 0 0 false
     (Entry.mk ["st", "bashrc"] ["home", "u", "bashrc"])
     [Entry.mk ["st", "o"] ["home", "v", "o"]]
     (by decide) (by decide) (by decide) rfl⟩

/-- C7: (1) when the remote exists and `overwrite_all` is set or the remote
is pre-authorized, the iteration shows no prompt (both counters unchanged)
and proceeds directly to overwrite-and-symlink; (2) choosing "overwrite
all" (selection 2) at a prompt sets the `overwrite_all` flag for the rest
of the pass; (3) a re-link pass in which every entry's remote is
pre-authorized (still the expected symlink, parents intact) links every
entry, shows no prompt at all, and leaves the filesystem pointwise
unchanged (src/main.rs lines 354-369, 282-290). -/
theorem C7_preauthorized_relink_never_prompts :
    (∀ (oc : Nat → Bool) (os : Nat → Nat) (ow : List LPath) (fs : LFs)
       (ci si : Nat) (owAll : Bool) (e : Entry),
      parentReady fs e.remote = true →
      existsL fs e.remote = true →
      (owAll = true ∨ e.remote ∈ ow) →
      linkStep oc os ow fs ci si owAll e =
        (Except.ok (some e),
         insertK (linkOverwrite fs e.remote) e.remote FsNode.symlink,
         ci, si, owAll)) ∧
    (∀ (oc : Nat → Bool) (os : Nat → Nat) (ow : List LPath) (fs : LFs)
       (ci si : Nat) (e : Entry),
      parentReady fs e.remote = true →
      existsL fs e.remote = true →
      e.remote ∉ ow →
      os si = 2 →
      linkStep oc os ow fs ci si false e =
        (Except.ok (some e),
         insertK (linkOverwrite fs e.remote) e.remote FsNode.symlink,
         ci, si + 1, true)) ∧
    (∀ (oc : Nat → Bool) (os : Nat → Nat) (ow : List LPath) (fs : LFs)
       (ci si : Nat) (entries : List Entry),
      (∀ e ∈ entries, lookupK fs e.remote = some FsNode.symlink ∧
        e.remote ∈ ow ∧ parentReady fs e.remote = true) →
      ∃ fs1, linkLoop oc os ow fs ci si false entries =
        (Except.ok entries, fs1, ci, si) ∧
        ∀ x, lookupK fs1 x = lookupK fs x) := by
  refine ⟨?_, ?_, ?_⟩
  · intro oc os ow fs ci si owAll e hready hex hok
    unfold linkStep
    rw [linkPrep_ready oc fs ci e.remote hready]
    rcases hok with hok | hok
    · subst hok
      simp [hex]
    · have hmem : decide (e.remote ∈ ow) = true := decide_eq_true hok
      simp [hex, hmem]
  · intro oc os ow fs ci si e hready hex hnm hsel
    unfold linkStep
    rw [linkPrep_ready oc fs ci e.remote hready]
    have hmem : decide (e.remote ∈ ow) = false := decide_eq_false hnm
    simp [hex, hmem, hsel]
  · intro oc os ow fs ci si entries
    induction entries generalizing fs with
    | nil => intro _; exact ⟨fs, rfl, fun x => rfl⟩
    | cons e rest ih =>
      intro h
      obtain ⟨hsym, how, hready⟩ := h e (List.mem_cons_self _ _)
      have hex : existsL fs e.remote = true := by simp [existsL, hsym]
      have hov : linkOverwrite fs e.remote = fs := by
        unfold linkOverwrite
        have hnd : isDirL fs e.remote = false := by simp [isDirL, hsym]
        have hnf : isFileL fs e.remote = false := by simp [isFileL, hsym]
        simp [hnd, hnf]
      have hstep : linkStep oc os ow fs ci si false e =
          (Except.ok (some e), insertK fs e.remote FsNode.symlink,
           ci, si, false) := by
        unfold linkStep
        rw [linkPrep_ready oc fs ci e.remote hready]
        have hmem : decide (e.remote ∈ ow) = true := decide_eq_true how
        simp [hex, hmem, hov]
      have hpt : ∀ x, lookupK (insertK fs e.remote FsNode.symlink) x =
          lookupK fs x := by
        intro x
        by_cases hx : x = e.remote
        · subst hx
          rw [lookupK_insertK_self]
          exact hsym.symm
        · exact lookupK_insertK_ne _ _ _ _ hx
      have hrest : ∀ e1 ∈ rest,
          lookupK (insertK fs e.remote FsNode.symlink) e1.remote =
            some FsNode.symlink ∧ e1.remote ∈ ow ∧
          parentReady (insertK fs e.remote FsNode.symlink) e1.remote =
            true := by
        intro e1 hm
        obtain ⟨h1, h2, h3⟩ := h e1 (List.mem_cons_of_mem _ hm)
        refine ⟨by rw [hpt]; exact h1, h2, ?_⟩
        rw [parentReady_congr _ fs _ hpt]
        exact h3
      obtain ⟨fs2, hloop, hpt2⟩ := ih (insertK fs e.remote FsNode.symlink)
        hrest
      refine ⟨fs2, ?_, fun x => (hpt2 x).trans (hpt x)⟩
      simp only [linkLoop, hstep, hloop]

theorem C7_preauthorized_relink_never_prompts_witness :
    (∀ e ∈ [Entry.mk ["st", "bashrc"] ["home", "u", "bashrc"],
            Entry.mk ["st", "nvim"] ["home", "u", "nvim"]],
      lookupK ([(["home"], FsNode.dir), (["home", "u"], FsNode.dir),
          (["home", "u", "bashrc"], FsNode.symlink),
          (["home", "u", "nvim"], FsNode.symlink)] : LFs) e.remote =
        some FsNode.symlink ∧
      e.remote ∈ [(["home", "u", "bashrc"] : LPath), ["home", "u", "nvim"]] ∧
      parentReady ([(["home"], FsNode.dir), (["home", "u"], FsNode.dir),
          (["home", "u", "bashrc"], FsNode.symlink),
          (["home", "u", "nvim"], FsNode.symlink)] : LFs) e.remote = true) ∧
    (∃ fs1, linkLoop (fun _ => false) (fun _ => 0)
        [(["home", "u", "bashrc"] : LPath), ["home", "u", "nvim"]]
        [(["home"], FsNode.dir), (["home", "u"], FsNode.dir),
         (["home", "u", "bashrc"], FsNode.symlink),
         (["home", "u", "nvim"], FsNode.symlink)] 0 0 false
        [Entry.mk ["st", "bashrc"] ["home", "u", "bashrc"],
         Entry.mk ["st", "nvim"] ["home", "u", "nvim"]] =
        (Except.ok [Entry.mk ["st", "bashrc"] ["home", "u", "bashrc"],
          Entry.mk ["st", "nvim"] ["home", "u", "nvim"]], fs1, 0, 0) ∧
        ∀ x, lookupK fs1 x =
          lookupK ([(["home"], FsNode.dir), (["home", "u"], FsNode.dir),
            (["home", "u", "bashrc"], FsNode.symlink),
            (["home", "u", "nvim"], FsNode.symlink)] : LFs) x) :=
  ⟨by decide,
   C7_preauthorized_relink_never_prompts.2.2 (fun _ => false) (fun _ => 0)
     [(["home", "u", "bashrc"] : LPath), ["home", "u", "nvim"]]
     [(["home"], FsNode.dir), (["home", "u"], FsNode.dir),
      (["home", "u", "bashrc"], FsNode.symlink),
      (["home", "u", "nvim"], FsNode.symlink)] 0 0
     [Entry.mk ["st", "bashrc"] ["home", "u", "bashrc"],
      Entry.mk ["st", "nvim"] ["home", "u", "nvim"]] (by decide)⟩

/-- C8: (1) when the user chooses "skip" (selection 0) for an entry whose
remote exists, the filesystem is left entirely unchanged — in particular at
that remote — the entry is dropped from the result (`none`), one select
prompt was consumed and `overwrite_all` stays false; (2) a remote absent
from the linked entries recorded by `cmd_link` is absent from the
pre-authorization set the next Link invocation computes; (3) an existing
remote outside the pre-authorization set with `overwrite_all` unset always
consumes a select prompt (src/main.rs lines 354-368, 305-308). -/
theorem C8_skip_drops_entry_and_reprompts :
    (∀ (oc : Nat → Bool) (os : Nat → Nat) (ow : List LPath) (fs : LFs)
       (ci si : Nat) (e : Entry),
      parentReady fs e.remote = true →
      existsL fs e.remote = true →
      e.remote ∉ ow →
      os si = 0 →
      linkStep oc os ow fs ci si false e =
        (Except.ok none, fs, ci, si + 1, false)) ∧
    (∀ (lock : Lock) (bundleName : String) (b : Bundle)
       (linked : List Entry) (r : LPath),
      r ∉ linked.map (fun it => it.remote) → b.id = bundleName →
      r ∉ previous_remotes (cmd_link_update_lock lock bundleName b linked)
            bundleName) ∧
    (∀ (oc : Nat → Bool) (os : Nat → Nat) (ow : List LPath) (fs : LFs)
       (ci si : Nat) (e : Entry),
      parentReady fs e.remote = true →
      existsL fs e.remote = true →
      e.remote ∉ ow →
      ∃ oe fs1 owAll1, linkStep oc os ow fs ci si false e =
        (Except.ok oe, fs1, ci, si + 1, owAll1)) := by
  refine ⟨?_, ?_, ?_⟩
  · intro oc os ow fs ci si e hready hex hnm hsel
    unfold linkStep
    rw [linkPrep_ready oc fs ci e.remote hready]
    have hmem : decide (e.remote ∈ ow) = false := decide_eq_false hnm
    simp [hex, hmem, hsel]
  · intro lock bundleName b linked r hr hid
    unfold previous_remotes cmd_link_update_lock
    simp only
    rw [find?_append_of_none _ _ _ ?hnone]
    case hnone =>
      intro bu hbu
      have hf := List.of_mem_filter hbu
      have hne : bu.id ≠ bundleName := of_decide_eq_true hf
      exact decide_eq_false hne
    have hfind : List.find? (fun it => decide (it.id = bundleName))
        [Bundle.mk b.id linked] = some (Bundle.mk b.id linked) := by
      simp [List.find?, decide_eq_true hid]
    rw [hfind]
    exact hr
  · intro oc os ow fs ci si e hready hex hnm
    have hmem : decide (e.remote ∈ ow) = false := decide_eq_false hnm
    by_cases hsel : os si = 0
    · refine ⟨none, fs, false, ?_⟩
      unfold linkStep
      rw [linkPrep_ready oc fs ci e.remote hready]
      simp [hex, hmem, hsel]
    · refine ⟨some e,
        insertK (linkOverwrite fs e.remote) e.remote FsNode.symlink,
        (if os si = 2 then true else false), ?_⟩
      unfold linkStep
      rw [linkPrep_ready oc fs ci e.remote hready]
      simp [hex, hmem, hsel]

theorem C8_skip_drops_entry_and_reprompts_witness :
    (parentReady ([(["home"], FsNode.dir), (["home", "u"], FsNode.dir),
        (["home", "u", "bashrc"], FsNode.file)] : LFs)
      (["home", "u", "bashrc"] : LPath) = true) ∧
    (linkStep (fun _ => true) (fun _ => 0) []
        [(["home"], FsNode.dir), (["home", "u"], FsNode.dir),
         (["home", "u", "bashrc"], FsNode.file)] 0 0 false
        (Entry.mk ["st", "bashrc"] ["home", "u", "bashrc"]) =
      (Except.ok none,
       [(["home"], FsNode.dir), (["home", "u"], FsNode.dir),
        (["home", "u", "bashrc"], FsNode.file)], 0, 1, false)) ∧
    (["home", "u", "bashrc"] : LPath) ∉
      previous_remotes (cmd_link_update_lock (Lock.mk []) "shell"
        (Bundle.mk "shell"
          [Entry.mk ["st", "bashrc"] ["home", "u", "bashrc"]]) []) "shell" :=
  ⟨by decide,
   C8_skip_drops_entry_and_reprompts.1 (fun _ => true) (fun _ => 0) []
     [(["home"], FsNode.dir), (["home", "u"], FsNode.dir),
      (["home", "u", "bashrc"], FsNode.file)] 0 0
     (Entry.mk ["st", "bashrc"] ["home", "u", "bashrc"])
     (by decide) (by decide) (by decide) rfl,
   C8_skip_drops_entry_and_reprompts.2.1 (Lock.mk []) "shell"
     (Bundle.mk "shell"
       [Entry.mk ["st", "bashrc"] ["home", "u", "bashrc"]]) []
     (["home", "u", "bashrc"] : LPath) (by decide) rfl⟩

end Claims

end Dotgirl
